import Mathlib

/-!
Verification of the `covered` directory-coverage tool.

The program walks two directory trees, hashes every file, and reports the
source-tree files whose content hash appears nowhere in the coverage tree.
We embed the filesystem as a finite set of canonical inodes (`Fin n`): an
inode is what `Path.resolve()` returns, so symlinks are modelled by letting
several directory entries point to the same inode.  A directory entry is a
pair of the textual path the program constructs (`parent / name`, never
resolved) together with the resolved inode.
-/

/-- A filesystem with `n` canonical inodes.  `children` lists a directory's
entries in `iterdir` order as (entry name, resolved inode); `content` gives
the byte content of a file inode. -/
structure FS (n : Nat) where
  isDir : Fin n → Bool
  children : Fin n → List (String × Fin n)
  content : Fin n → List Nat

/-- The entries `list(fle.iterdir())` produces for the directory inode `d`
reached via the textual path `path`: each child keeps the unresolved
textual path `path / name` but carries its resolved inode. -/
def childEntries {n : Nat} (fs : FS n) (path : String) (d : Fin n) :
    List (String × Fin n) :=
  (fs.children d).map (fun c => (path ++ "/" ++ c.1, c.2))

/-- The worklist loop of `_all_files_in_dir`: `left.pop()` removes the last
element, directory children are appended at the end, and the set `visited`
holds the already-seen resolved inodes (`str(fle.resolve())`).  Termination
is by the lexicographic measure (unvisited inodes, worklist length). -/
def allFilesAux {n : Nat} (fs : FS n) (visited : Finset (Fin n))
    (left : List (String × Fin n)) : List (String × Fin n) :=
  match h : left.getLast? with
  | none => []
  | some fle =>
    let rest := left.dropLast
    if fle.2 ∈ visited then
      allFilesAux fs visited rest
    else if fs.isDir fle.2 then
      allFilesAux fs (insert fle.2 visited) (rest ++ childEntries fs fle.1 fle.2)
    else
      fle :: allFilesAux fs (insert fle.2 visited) rest
termination_by (n - visited.card, left.length)
decreasing_by
  · apply Prod.Lex.right
    have hne : left ≠ [] := by intro he; rw [he] at h; simp at h
    have hpos : 0 < left.length := List.length_pos.mpr hne
    simp [List.length_dropLast]
    omega
  · apply Prod.Lex.left
    have hcard : (insert fle.2 visited).card ≤ n := by
      simpa using Finset.card_le_univ (insert fle.2 visited)
    rw [Finset.card_insert_of_not_mem (by assumption)] at hcard ⊢
    omega
  · apply Prod.Lex.left
    have hcard : (insert fle.2 visited).card ≤ n := by
      simpa using Finset.card_le_univ (insert fle.2 visited)
    rw [Finset.card_insert_of_not_mem (by assumption)] at hcard ⊢
    omega

/-- `_all_files_in_dir(d)`: the generator's yields, in order.  The root is
given as (textual path, resolved inode); the worklist starts with
`list(d.iterdir())` and the root itself is never marked visited. -/
def _all_files_in_dir {n : Nat} (fs : FS n) (d : String × Fin n) :
    List (String × Fin n) :=
  allFilesAux fs ∅ (childEntries fs d.1 d.2)

/-- `dir_contents(d, hash_fun)`: pair every enumerated file with its hash. -/
def dir_contents {n : Nat} {H : Type} (fs : FS n) (d : String × Fin n)
    (hash_fun : String × Fin n → H) : List ((String × Fin n) × H) :=
  (_all_files_in_dir fs d).map (fun fle => (fle, hash_fun fle))

/-- `covered(src, covered_by, hash_fun)`: build the set of coverage-tree
hashes and keep, in order, the source pairs whose hash is not a member.
The Python set `hashes_cov` is modelled by list membership, which agrees
with set membership; the append loop is exactly a filter. -/
def covered {n : Nat} {H : Type} [DecidableEq H] (fs : FS n)
    (src covered_by : String × Fin n) (hash_fun : String × Fin n → H) :
    List ((String × Fin n) × H) :=
  let contents_src := dir_contents fs src hash_fun
  let contents_cov := dir_contents fs covered_by hash_fun
  let hashes_cov := contents_cov.map Prod.snd
  contents_src.filter (fun p => decide (p.2 ∉ hashes_cov))

/-- Modelled from the spec: "return the ordered sequence of (path, hash)
pairs from the source tree whose hash has no match in the coverage tree".
Stated directly as a filter against all coverage-tree pairs, to be compared
with the implementation `covered`. -/
def coveredSpec {n : Nat} {H : Type} [DecidableEq H] (fs : FS n)
    (src covered_by : String × Fin n) (hash_fun : String × Fin n → H) :
    List ((String × Fin n) × H) :=
  (dir_contents fs src hash_fun).filter
    (fun p => decide (∀ q ∈ dir_contents fs covered_by hash_fun, p.2 ≠ q.2))

/-- The lines `main` prints: one `f"{missing[0]}\t{missing[1]}"` line per
missing pair, in order. -/
def main_output {n : Nat} (fs : FS n) (src cov : String × Fin n)
    (hash_fun : String × Fin n → String) : List String :=
  (covered fs src cov hash_fun).map (fun missing => missing.1.1 ++ "\t" ++ missing.2)

/-- `dir_contents` with a fallible hashing function: the comprehension
`[(fle, hash_fun(fle)) for fle in fles]` evaluates `hash_fun` left to
right and an exception aborts the whole list. -/
def dir_contentsE {n : Nat} {H ε : Type} (fs : FS n) (d : String × Fin n)
    (hash_fun : String × Fin n → Except ε H) :
    Except ε (List ((String × Fin n) × H)) :=
  (_all_files_in_dir fs d).mapM (fun fle => (hash_fun fle).map (fun h => (fle, h)))

/-- `covered` with a fallible hashing function: any exception raised while
hashing either tree propagates out of `covered`. -/
def coveredE {n : Nat} {H ε : Type} [DecidableEq H] (fs : FS n)
    (src covered_by : String × Fin n) (hash_fun : String × Fin n → Except ε H) :
    Except ε (List ((String × Fin n) × H)) := do
  let contents_src ← dir_contentsE fs src hash_fun
  let contents_cov ← dir_contentsE fs covered_by hash_fun
  let hashes_cov := contents_cov.map Prod.snd
  pure (contents_src.filter (fun p => decide (p.2 ∉ hashes_cov)))

/-- `main` with a fallible hashing function: the report lines exist only if
`covered` returned normally; an exception yields no output at all. -/
def main_outputE {n : Nat} {ε : Type} (fs : FS n) (src cov : String × Fin n)
    (hash_fun : String × Fin n → Except ε String) : Except ε (List String) :=
  (coveredE fs src cov hash_fun).map
    (fun missings => missings.map (fun missing => missing.1.1 ++ "\t" ++ missing.2))

/-- 32-bit left rotation on `Nat`, for words below `2 ^ 32`. -/
def rotl32 (b x : Nat) : Nat :=
  (x * 2 ^ b + x / 2 ^ (32 - b)) % 4294967296

/-- The SHA-1 round function for round `t` (FIPS 180). -/
def sha1F (t b c d : Nat) : Nat :=
  if t < 20 then (b &&& c) ||| ((b ^^^ 4294967295) &&& d)
  else if t < 40 then b ^^^ c ^^^ d
  else if t < 60 then (b &&& c) ||| (b &&& d) ||| (c &&& d)
  else b ^^^ c ^^^ d

/-- The SHA-1 round constants. -/
def sha1K (t : Nat) : Nat :=
  if t < 20 then 1518500249
  else if t < 40 then 1859775393
  else if t < 60 then 2400959708
  else 3395469782

/-- Big-endian 32-bit words from a byte list (bytes taken mod 256). -/
def bytesToWords : List Nat → List Nat
  | b0 :: b1 :: b2 :: b3 :: rest =>
      ((((b0 % 256) * 256 + b1 % 256) * 256 + b2 % 256) * 256 + b3 % 256)
        :: bytesToWords rest
  | _ => []

/-- Extend the 16 message-schedule words by `k` more words. -/
def sha1ExtendW (ws : List Nat) : Nat → List Nat
  | 0 => ws
  | k + 1 =>
      let t := ws.length
      let w := rotl32 1 ((ws.getD (t - 3) 0) ^^^ (ws.getD (t - 8) 0)
        ^^^ (ws.getD (t - 14) 0) ^^^ (ws.getD (t - 16) 0))
      sha1ExtendW (ws ++ [w]) k

/-- The 80 SHA-1 rounds over the schedule `ws` starting from state `st`. -/
def sha1Rounds (ws : List Nat) (st : Nat × Nat × Nat × Nat × Nat) :
    Nat × Nat × Nat × Nat × Nat :=
  (List.range 80).foldl
    (fun s t =>
      match s with
      | (a, b, c, d, e) =>
        ((rotl32 5 a + sha1F t b c d + e + sha1K t + ws.getD t 0) % 4294967296,
          a, rotl32 30 b, c, d))
    st

/-- Process one 64-byte block of the padded message. -/
def sha1ProcessBlock (st : Nat × Nat × Nat × Nat × Nat) (block : List Nat) :
    Nat × Nat × Nat × Nat × Nat :=
  let ws := sha1ExtendW (bytesToWords block) 64
  let r := sha1Rounds ws st
  ((st.1 + r.1) % 4294967296,
    (st.2.1 + r.2.1) % 4294967296,
    (st.2.2.1 + r.2.2.1) % 4294967296,
    (st.2.2.2.1 + r.2.2.2.1) % 4294967296,
    (st.2.2.2.2 + r.2.2.2.2) % 4294967296)

/-- `k` big-endian bytes of `x`. -/
def bigEndianBytes : Nat → Nat → List Nat
  | 0, _ => []
  | k + 1, x => bigEndianBytes k (x / 256) ++ [x % 256]

/-- SHA-1 padding: a 128 byte, zeros to 56 mod 64, then the bit length on
8 big-endian bytes. -/
def sha1Pad (msg : List Nat) : List Nat :=
  msg ++ (128 :: (List.replicate ((64 - ((msg.length + 9) % 64)) % 64) 0
    ++ bigEndianBytes 8 (msg.length * 8)))

/-- Split a list into consecutive chunks of `sz > 0` elements, the last one
possibly shorter: the successive results of `f.read(sz)`. -/
def chunksOf {α : Type} (sz : Nat) (hsz : 0 < sz) (l : List α) :
    List (List α) :=
  if h : l.isEmpty then []
  else l.take sz :: chunksOf sz hsz (l.drop sz)
termination_by l.length
decreasing_by
  have hne : l ≠ [] := by
    intro he
    rw [he] at h
    simp at h
  have hpos : 0 < l.length := List.length_pos.mpr hne
  simp [List.length_drop]
  omega

/-- The SHA-1 initial state. -/
def sha1Init : Nat × Nat × Nat × Nat × Nat :=
  (1732584193, 4023233417, 2562383102, 271733878, 3285377520)

/-- The five 32-bit state words after hashing `msg`. -/
def sha1Words (msg : List Nat) : Nat × Nat × Nat × Nat × Nat :=
  (chunksOf 64 (by omega) (sha1Pad msg)).foldl sha1ProcessBlock sha1Init

/-- The lowercase hexadecimal digit for `d < 16`. -/
def hexDigitChar (d : Nat) : Char :=
  if d < 10 then Char.ofNat (48 + d) else Char.ofNat (87 + d)

/-- `k` lowercase hexadecimal digits of `x`, most significant first. -/
def toHexFixed : Nat → Nat → List Char
  | 0, _ => []
  | k + 1, x => toHexFixed k (x / 16) ++ [hexDigitChar (x % 16)]

/-- The sixteen characters a lowercase hexadecimal rendering may use. -/
def lowercaseHexDigits : List Char :=
  "0123456789abcdef".data

/-- Render a five-word state as eight lowercase hexadecimal digits per
word. -/
def sha1hexOfWords (w : Nat × Nat × Nat × Nat × Nat) : String :=
  String.mk (toHexFixed 8 w.1 ++ toHexFixed 8 w.2.1 ++ toHexFixed 8 w.2.2.1
    ++ toHexFixed 8 w.2.2.2.1 ++ toHexFixed 8 w.2.2.2.2)

/-- Combine a five-word state into the single 160-bit value it encodes. -/
def sha1DigestOfWords (w : Nat × Nat × Nat × Nat × Nat) : Nat :=
  (((w.1 * 4294967296 + w.2.1) * 4294967296 + w.2.2.1) * 4294967296
    + w.2.2.2.1) * 4294967296 + w.2.2.2.2

/-- `hashlib.sha1(msg).hexdigest()`: the five state words rendered as eight
lowercase hexadecimal digits each. -/
def sha1hexBytes (msg : List Nat) : String :=
  sha1hexOfWords (sha1Words msg)

/-- The 160-bit SHA-1 digest of `msg` as a single natural number. -/
def sha1Digest (msg : List Nat) : Nat :=
  sha1DigestOfWords (sha1Words msg)

/-- `sha1.update(data)`: the mathematical state of an incremental hash
object is the byte sequence absorbed so far. -/
def sha1Update (absorbed data : List Nat) : List Nat :=
  absorbed ++ data

/-- `sha1_file_hash(fle)`: read the file in chunks of `BUF_SIZE = 65536`
bytes, feed each chunk to the hash object, and return the hex digest
(`"{}".format(...)` is the identity on the digest string).  Reading the
path `fle` yields the content of its resolved inode. -/
def sha1_file_hash {n : Nat} (fs : FS n) (fle : String × Fin n) : String :=
  sha1hexBytes ((chunksOf 65536 (by omega) (fs.content fle.2)).foldl sha1Update [])

/-- Reachability between inodes along directory entries, every inode on the
walk (endpoints included) avoiding the set `vis`.  With `vis = ∅` this is
plain reachability through the directory graph. -/
inductive ReachAvoid {n : Nat} (fs : FS n) (vis : Finset (Fin n)) :
    Fin n → Fin n → Prop
  | refl (v : Fin n) (hv : v ∉ vis) : ReachAvoid fs vis v v
  | step (u : Fin n) (c : String × Fin n) (v : Fin n) (hu : u ∉ vis)
      (hd : fs.isDir u = true) (hc : c ∈ fs.children u)
      (hr : ReachAvoid fs vis c.2 v) : ReachAvoid fs vis u v

/-- A concrete filesystem used to instantiate the theorems.  Inode 0 is the
directory `A` (a `hello` file plus `sub/b.txt` containing `world`), inode 4
the directory `B` (one `hello` file under another name), inode 6 an empty
directory `E`, and inode 7 a directory `D` with two distinct files that both
contain `hello`. -/
def exFS : FS 10 where
  isDir := fun v => v.val == 0 || v.val == 2 || v.val == 4 || v.val == 6 || v.val == 7
  children := fun v =>
    match v.val with
    | 0 => [("a.txt", 1), ("sub", 2)]
    | 2 => [("b.txt", 3)]
    | 4 => [("c.txt", 5)]
    | 7 => [("x.txt", 8), ("y.txt", 9)]
    | _ => []
  content := fun v =>
    match v.val with
    | 1 => [104, 101, 108, 108, 111]
    | 3 => [119, 111, 114, 108, 100]
    | 5 => [104, 101, 108, 108, 111]
    | 8 => [104, 101, 108, 108, 111]
    | 9 => [104, 101, 108, 108, 111]
    | _ => []

/-- A content-determined hashing function on `exFS` (the hash of a file is
its own byte content), enough to instantiate the parametric theorems. -/
def exHash : String × Fin 10 → List Nat :=
  fun e => exFS.content e.2

/-- A filesystem with a symlink cycle: the subdirectory (inode 2) contains
an entry `back` resolving to the root directory (inode 0). -/
def cycFS : FS 3 where
  isDir := fun v => v.val == 0 || v.val == 2
  children := fun v =>
    match v.val with
    | 0 => [("a.txt", 1), ("sub", 2)]
    | 2 => [("back", 0)]
    | _ => []
  content := fun v => match v.val with | 1 => [104] | _ => []

/-- A fallible hashing function on `exFS` that raises on the `world` file
(inode 3) and succeeds elsewhere, modelling a file that becomes unreadable
between enumeration and hashing. -/
def exHashE : String × Fin 10 → Except String String :=
  fun e => if e.2.val == 3 then Except.error "unreadable" else Except.ok "h"

/-- A string-valued content hash on `exFS`, for the report-line theorems. -/
def exHashS : String × Fin 10 → String :=
  fun e =>
    match e.2.val with
    | 3 => "W"
    | 1 => "H"
    | 5 => "H"
    | 8 => "H"
    | 9 => "H"
    | _ => ""

/-- Modelled from the spec: a POSIX-absolute path, one that starts with the
character `/`. -/
def isAbsolutePath (s : String) : Bool :=
  s.data.head? == some '/'

/-! ### Unfolding lemmas for the worklist loop -/

/-- An exhausted worklist produces nothing. -/
theorem allFilesAux_none {n : Nat} (fs : FS n) (visited : Finset (Fin n))
    (left : List (String × Fin n)) (h : left.getLast? = none) :
    allFilesAux fs visited left = [] := by
  rw [allFilesAux, h]

/-- The empty worklist produces nothing. -/
theorem allFilesAux_nil {n : Nat} (fs : FS n) (visited : Finset (Fin n)) :
    allFilesAux fs visited [] = [] :=
  allFilesAux_none fs visited [] rfl

/-- Popping an entry whose resolved inode was already visited skips it. -/
theorem allFilesAux_skip {n : Nat} (fs : FS n) (visited : Finset (Fin n))
    (left : List (String × Fin n)) (fle : String × Fin n)
    (h : left.getLast? = some fle) (hv : fle.2 ∈ visited) :
    allFilesAux fs visited left = allFilesAux fs visited left.dropLast := by
  rw [allFilesAux, h]
  simp [hv]

/-- Popping an unvisited directory marks it visited and appends its
children to the worklist. -/
theorem allFilesAux_dir {n : Nat} (fs : FS n) (visited : Finset (Fin n))
    (left : List (String × Fin n)) (fle : String × Fin n)
    (h : left.getLast? = some fle) (hv : fle.2 ∉ visited) (hd : fs.isDir fle.2 = true) :
    allFilesAux fs visited left =
      allFilesAux fs (insert fle.2 visited) (left.dropLast ++ childEntries fs fle.1 fle.2) := by
  rw [allFilesAux, h]
  simp [hv, hd]

/-- Popping an unvisited file yields it. -/
theorem allFilesAux_file {n : Nat} (fs : FS n) (visited : Finset (Fin n))
    (left : List (String × Fin n)) (fle : String × Fin n)
    (h : left.getLast? = some fle) (hv : fle.2 ∉ visited) (hd : fs.isDir fle.2 = false) :
    allFilesAux fs visited left =
      fle :: allFilesAux fs (insert fle.2 visited) left.dropLast := by
  rw [allFilesAux, h]
  simp [hv, hd]

/-! ### Concrete runs of the enumerator on `exFS` -/

/-- Enumerating `A` via the absolute path `/A`. -/
theorem exFS_files_A :
    _all_files_in_dir exFS ("/A", 0) = [("/A/sub/b.txt", 3), ("/A/a.txt", 1)] := by
  have s1 : allFilesAux exFS ∅ [("/A/a.txt", 1), ("/A/sub", 2)]
      = allFilesAux exFS (insert 2 ∅) [("/A/a.txt", 1), ("/A/sub/b.txt", 3)] :=
    allFilesAux_dir exFS ∅ [("/A/a.txt", 1), ("/A/sub", 2)] ("/A/sub", 2)
      rfl (by decide) rfl
  have s2 : allFilesAux exFS (insert 2 ∅) [("/A/a.txt", 1), ("/A/sub/b.txt", 3)]
      = ("/A/sub/b.txt", 3) :: allFilesAux exFS (insert 3 (insert 2 ∅)) [("/A/a.txt", 1)] :=
    allFilesAux_file exFS (insert 2 ∅) [("/A/a.txt", 1), ("/A/sub/b.txt", 3)]
      ("/A/sub/b.txt", 3) rfl (by decide) rfl
  have s3 : allFilesAux exFS (insert 3 (insert 2 ∅)) [("/A/a.txt", 1)]
      = ("/A/a.txt", 1) :: allFilesAux exFS (insert 1 (insert 3 (insert 2 ∅))) [] :=
    allFilesAux_file exFS (insert 3 (insert 2 ∅)) [("/A/a.txt", 1)] ("/A/a.txt", 1)
      rfl (by decide) rfl
  show allFilesAux exFS ∅ [("/A/a.txt", 1), ("/A/sub", 2)] = _
  rw [s1, s2, s3, allFilesAux_nil]

/-- Enumerating `A` via the relative path `A`: the yielded paths keep the
relative root. -/
theorem exFS_files_A_rel :
    _all_files_in_dir exFS ("A", 0) = [("A/sub/b.txt", 3), ("A/a.txt", 1)] := by
  have s1 : allFilesAux exFS ∅ [("A/a.txt", 1), ("A/sub", 2)]
      = allFilesAux exFS (insert 2 ∅) [("A/a.txt", 1), ("A/sub/b.txt", 3)] :=
    allFilesAux_dir exFS ∅ [("A/a.txt", 1), ("A/sub", 2)] ("A/sub", 2)
      rfl (by decide) rfl
  have s2 : allFilesAux exFS (insert 2 ∅) [("A/a.txt", 1), ("A/sub/b.txt", 3)]
      = ("A/sub/b.txt", 3) :: allFilesAux exFS (insert 3 (insert 2 ∅)) [("A/a.txt", 1)] :=
    allFilesAux_file exFS (insert 2 ∅) [("A/a.txt", 1), ("A/sub/b.txt", 3)]
      ("A/sub/b.txt", 3) rfl (by decide) rfl
  have s3 : allFilesAux exFS (insert 3 (insert 2 ∅)) [("A/a.txt", 1)]
      = ("A/a.txt", 1) :: allFilesAux exFS (insert 1 (insert 3 (insert 2 ∅))) [] :=
    allFilesAux_file exFS (insert 3 (insert 2 ∅)) [("A/a.txt", 1)] ("A/a.txt", 1)
      rfl (by decide) rfl
  show allFilesAux exFS ∅ [("A/a.txt", 1), ("A/sub", 2)] = _
  rw [s1, s2, s3, allFilesAux_nil]

/-- Enumerating `B`. -/
theorem exFS_files_B :
    _all_files_in_dir exFS ("/B", 4) = [("/B/c.txt", 5)] := by
  have s1 : allFilesAux exFS ∅ [("/B/c.txt", 5)]
      = ("/B/c.txt", 5) :: allFilesAux exFS (insert 5 ∅) [] :=
    allFilesAux_file exFS ∅ [("/B/c.txt", 5)] ("/B/c.txt", 5) rfl (by decide) rfl
  show allFilesAux exFS ∅ [("/B/c.txt", 5)] = _
  rw [s1, allFilesAux_nil]

/-- Enumerating `D`: two distinct files with identical content. -/
theorem exFS_files_D :
    _all_files_in_dir exFS ("/D", 7) = [("/D/y.txt", 9), ("/D/x.txt", 8)] := by
  have s1 : allFilesAux exFS ∅ [("/D/x.txt", 8), ("/D/y.txt", 9)]
      = ("/D/y.txt", 9) :: allFilesAux exFS (insert 9 ∅) [("/D/x.txt", 8)] :=
    allFilesAux_file exFS ∅ [("/D/x.txt", 8), ("/D/y.txt", 9)] ("/D/y.txt", 9)
      rfl (by decide) rfl
  have s2 : allFilesAux exFS (insert 9 ∅) [("/D/x.txt", 8)]
      = ("/D/x.txt", 8) :: allFilesAux exFS (insert 8 (insert 9 ∅)) [] :=
    allFilesAux_file exFS (insert 9 ∅) [("/D/x.txt", 8)] ("/D/x.txt", 8)
      rfl (by decide) rfl
  show allFilesAux exFS ∅ [("/D/x.txt", 8), ("/D/y.txt", 9)] = _
  rw [s1, s2, allFilesAux_nil]

/-- Enumerating the empty directory `E`. -/
theorem exFS_files_E : _all_files_in_dir exFS ("/E", 6) = [] := by
  show allFilesAux exFS ∅ [] = _
  rw [allFilesAux_nil]

/-! ### Reachability lemmas -/

/-- The start inode of an avoiding walk is itself avoided. -/
theorem ReachAvoid.start_not_mem {n : Nat} {fs : FS n} {vis : Finset (Fin n)}
    {u v : Fin n} (h : ReachAvoid fs vis u v) : u ∉ vis := by
  cases h with
  | refl _ hv => exact hv
  | step _ _ _ hu _ _ _ => exact hu

/-- A walk avoiding a larger set also avoids a smaller one. -/
theorem ReachAvoid.mono {n : Nat} {fs : FS n} {vis vis' : Finset (Fin n)}
    {u v : Fin n} (hsub : vis ⊆ vis') (h : ReachAvoid fs vis' u v) :
    ReachAvoid fs vis u v := by
  induction h with
  | refl w hw => exact ReachAvoid.refl w (fun hm => hw (hsub hm))
  | step u c v hu hd hc _ ih =>
      exact ReachAvoid.step u c v (fun hm => hu (hsub hm)) hd hc ih

/-- Cutting a walk at a directory inode `w`: either the walk already avoids
`w`, or it passes through `w` and some child of `w` starts a walk to the
target that avoids `w` as well. -/
theorem ReachAvoid.split_dir {n : Nat} {fs : FS n} {vis : Finset (Fin n)}
    {u v : Fin n} (w : Fin n) (hd : fs.isDir w = true)
    (h : ReachAvoid fs vis u v) : v ≠ w →
    ReachAvoid fs (insert w vis) u v
      ∨ ∃ c ∈ fs.children w, ReachAvoid fs (insert w vis) c.2 v := by
  induction h with
  | refl x hx =>
    intro hne
    left
    refine ReachAvoid.refl x (fun hm => ?_)
    rcases Finset.mem_insert.mp hm with h1 | h2
    · exact hne h1
    · exact hx h2
  | step u c v hu hdu hc _ ih =>
    intro hne
    rcases ih hne with h' | h'
    · by_cases huw : u = w
      · subst huw
        exact Or.inr ⟨c, hc, h'⟩
      · refine Or.inl (ReachAvoid.step u c v (fun hm => ?_) hdu hc h')
        rcases Finset.mem_insert.mp hm with h1 | h2
        · exact huw h1
        · exact hu h2
    · exact Or.inr h'

/-- A walk to a target other than the file inode `w` never passes through
`w`, hence avoids it. -/
theorem ReachAvoid.split_file {n : Nat} {fs : FS n} {vis : Finset (Fin n)}
    {u v : Fin n} (w : Fin n) (hd : fs.isDir w = false)
    (h : ReachAvoid fs vis u v) : v ≠ w →
    ReachAvoid fs (insert w vis) u v := by
  induction h with
  | refl x hx =>
    intro hne
    refine ReachAvoid.refl x (fun hm => ?_)
    rcases Finset.mem_insert.mp hm with h1 | h2
    · exact hne h1
    · exact hx h2
  | step u c v hu hdu hc _ ih =>
    intro hne
    refine ReachAvoid.step u c v (fun hm => ?_) hdu hc (ih hne)
    rcases Finset.mem_insert.mp hm with h1 | h2
    · rw [h1, hd] at hdu
      exact Bool.false_ne_true hdu
    · exact hu h2

/-! ### Invariants of the worklist loop -/

/-- The loop yields each resolved inode at most once, and never an inode
that was already visited when it started. -/
theorem allFilesAux_nodup {n : Nat} (fs : FS n) :
    ∀ (visited : Finset (Fin n)) (left : List (String × Fin n)),
      ((allFilesAux fs visited left).map Prod.snd).Nodup
      ∧ ∀ v ∈ (allFilesAux fs visited left).map Prod.snd, v ∉ visited := by
  intro visited left
  induction visited, left using allFilesAux.induct fs with
  | case1 visited left h =>
    rw [allFilesAux_none fs visited left h]
    simp
  | case2 visited left fle h rest hv ih =>
    rw [allFilesAux_skip fs visited left fle h hv]
    exact ih
  | case3 visited left fle h rest hv hd ih =>
    rw [allFilesAux_dir fs visited left fle h hv hd]
    refine ⟨ih.1, fun v hv' hm => ?_⟩
    exact ih.2 v hv' (Finset.mem_insert_of_mem hm)
  | case4 visited left fle h rest hv hnd ih =>
    have hd' : fs.isDir fle.2 = false := by
      revert hnd
      cases fs.isDir fle.2 <;> simp
    rw [allFilesAux_file fs visited left fle h hv hd']
    constructor
    · refine List.nodup_cons.mpr ⟨fun hmem => ?_, ih.1⟩
      exact ih.2 fle.2 hmem (Finset.mem_insert_self fle.2 visited)
    · intro v hv'
      rcases List.mem_cons.mp hv' with heq | hmem
      · rw [heq]
        exact hv
      · exact fun hm => ih.2 v hmem (Finset.mem_insert_of_mem hm)

/-- Soundness: every yield is a non-directory inode reachable from some
worklist entry by a walk avoiding the visited set. -/
theorem allFilesAux_sound {n : Nat} (fs : FS n) :
    ∀ (visited : Finset (Fin n)) (left : List (String × Fin n)),
      ∀ p ∈ allFilesAux fs visited left,
        fs.isDir p.2 = false ∧ ∃ e ∈ left, ReachAvoid fs visited e.2 p.2 := by
  intro visited left
  induction visited, left using allFilesAux.induct fs with
  | case1 visited left h =>
    rw [allFilesAux_none fs visited left h]
    simp
  | case2 visited left fle h rest hv ih =>
    rw [allFilesAux_skip fs visited left fle h hv]
    intro p hp
    obtain ⟨hdir, e, he, hr⟩ := ih p hp
    have hsplit := List.dropLast_append_getLast? fle h
    refine ⟨hdir, e, ?_, hr⟩
    rw [← hsplit]
    exact List.mem_append_left _ he
  | case3 visited left fle h rest hv hd ih =>
    rw [allFilesAux_dir fs visited left fle h hv hd]
    intro p hp
    obtain ⟨hdir, e, he, hr⟩ := ih p hp
    have hsplit := List.dropLast_append_getLast? fle h
    rcases List.mem_append.mp he with he' | he'
    · refine ⟨hdir, e, ?_, hr.mono (Finset.subset_insert fle.2 visited)⟩
      rw [← hsplit]
      exact List.mem_append_left _ he'
    · obtain ⟨c, hc, rfl⟩ := List.mem_map.mp he'
      refine ⟨hdir, fle, ?_, ?_⟩
      · rw [← hsplit]
        exact List.mem_append_right _ (List.mem_singleton.mpr rfl)
      · exact ReachAvoid.step fle.2 c p.2 hv hd hc
          (hr.mono (Finset.subset_insert fle.2 visited))
  | case4 visited left fle h rest hv hnd ih =>
    have hd' : fs.isDir fle.2 = false := by
      revert hnd
      cases fs.isDir fle.2 <;> simp
    rw [allFilesAux_file fs visited left fle h hv hd']
    intro p hp
    have hsplit := List.dropLast_append_getLast? fle h
    rcases List.mem_cons.mp hp with heq | hmem
    · subst heq
      refine ⟨hd', p, ?_, ReachAvoid.refl p.2 hv⟩
      rw [← hsplit]
      exact List.mem_append_right _ (List.mem_singleton.mpr rfl)
    · obtain ⟨hdir, e, he, hr⟩ := ih p hmem
      refine ⟨hdir, e, ?_, hr.mono (Finset.subset_insert fle.2 visited)⟩
      rw [← hsplit]
      exact List.mem_append_left _ he

/-- Completeness: a non-directory inode reachable from some worklist entry
by a walk avoiding the visited set is yielded by the loop. -/
theorem allFilesAux_complete {n : Nat} (fs : FS n) :
    ∀ (visited : Finset (Fin n)) (left : List (String × Fin n)),
      ∀ v : Fin n, fs.isDir v = false →
        (∃ e ∈ left, ReachAvoid fs visited e.2 v) →
        v ∈ (allFilesAux fs visited left).map Prod.snd := by
  intro visited left
  induction visited, left using allFilesAux.induct fs with
  | case1 visited left h =>
    intro v _ ⟨e, he, _⟩
    rw [List.getLast?_eq_none_iff.mp h] at he
    exact absurd he (List.not_mem_nil e)
  | case2 visited left fle h rest hv ih =>
    intro v hdv ⟨e, he, hr⟩
    have hsplit := List.dropLast_append_getLast? fle h
    rw [allFilesAux_skip fs visited left fle h hv]
    rw [← hsplit] at he
    rcases List.mem_append.mp he with he' | he'
    · exact ih v hdv ⟨e, he', hr⟩
    · rw [List.mem_singleton.mp he'] at hr
      exact absurd hv hr.start_not_mem
  | case3 visited left fle h rest hv hd ih =>
    intro v hdv ⟨e, he, hr⟩
    have hsplit := List.dropLast_append_getLast? fle h
    have hne : v ≠ fle.2 := by
      intro heq
      rw [heq, hd] at hdv
      exact absurd hdv (by decide)
    rw [allFilesAux_dir fs visited left fle h hv hd]
    rw [← hsplit] at he
    rcases List.mem_append.mp he with he' | he'
    · rcases hr.split_dir fle.2 hd hne with h' | ⟨c, hc, h'⟩
      · exact ih v hdv ⟨e, List.mem_append_left _ he', h'⟩
      · refine ih v hdv ⟨(fle.1 ++ "/" ++ c.1, c.2), List.mem_append_right _ ?_, h'⟩
        exact List.mem_map_of_mem _ hc
    · rw [List.mem_singleton.mp he'] at hr
      rcases hr.split_dir fle.2 hd hne with h' | ⟨c, hc, h'⟩
      · exact absurd (Finset.mem_insert_self fle.2 visited) h'.start_not_mem
      · refine ih v hdv ⟨(fle.1 ++ "/" ++ c.1, c.2), List.mem_append_right _ ?_, h'⟩
        exact List.mem_map_of_mem _ hc
  | case4 visited left fle h rest hv hnd ih =>
    intro v hdv ⟨e, he, hr⟩
    have hd' : fs.isDir fle.2 = false := by
      revert hnd
      cases fs.isDir fle.2 <;> simp
    have hsplit := List.dropLast_append_getLast? fle h
    rw [allFilesAux_file fs visited left fle h hv hd']
    by_cases hveq : v = fle.2
    · rw [List.map_cons, hveq]
      exact List.mem_cons_self fle.2 _
    · rw [← hsplit] at he
      rw [List.map_cons]
      refine List.mem_cons_of_mem _ ?_
      rcases List.mem_append.mp he with he' | he'
      · exact ih v hdv ⟨e, he', hr.split_file fle.2 hd' hveq⟩
      · rw [List.mem_singleton.mp he'] at hr
        cases hr with
        | refl _ _ => exact absurd rfl hveq
        | step _ c _ hu hdu hc hr' =>
          rw [hd'] at hdu
          exact absurd hdu Bool.false_ne_true

/-! ### Characterizations of `covered` -/

/-- Membership in the report: a source pair is reported iff its hash is
absent from the coverage hashes. -/
theorem mem_covered_iff {n : Nat} {H : Type} [DecidableEq H] (fs : FS n)
    (src cov : String × Fin n) (hash_fun : String × Fin n → H)
    (p : (String × Fin n) × H) :
    p ∈ covered fs src cov hash_fun ↔
      p ∈ dir_contents fs src hash_fun
        ∧ p.2 ∉ (dir_contents fs cov hash_fun).map Prod.snd := by
  simp [covered, List.mem_filter]

/-- Full coverage: the report is empty iff every source hash occurs among
the coverage hashes. -/
theorem covered_eq_nil_iff {n : Nat} {H : Type} [DecidableEq H] (fs : FS n)
    (src cov : String × Fin n) (hash_fun : String × Fin n → H) :
    covered fs src cov hash_fun = [] ↔
      ∀ p ∈ dir_contents fs src hash_fun,
        p.2 ∈ (dir_contents fs cov hash_fun).map Prod.snd := by
  simp [covered, List.filter_eq_nil_iff]

/-! ### Fallible hashing -/

/-- A `mapM` over `Except` fails as soon as some element fails. -/
theorem mapM_except_error {ε α β : Type} (f : α → Except ε β) :
    ∀ l : List α, (∃ x ∈ l, ∃ er, f x = Except.error er) →
      ∃ er, l.mapM f = Except.error er := by
  intro l
  induction l with
  | nil => rintro ⟨x, hx, _⟩; exact absurd hx (List.not_mem_nil x)
  | cons a t ih =>
    rintro ⟨x, hx, er, hfx⟩
    rw [List.mapM_cons]
    rcases List.mem_cons.mp hx with rfl | hxt
    · exact ⟨er, by rw [hfx]; rfl⟩
    · cases hfa : f a with
      | error e1 => exact ⟨e1, rfl⟩
      | ok b =>
        obtain ⟨er2, h2⟩ := ih ⟨x, hxt, er, hfx⟩
        refine ⟨er2, ?_⟩
        show (t.mapM f >>= fun xs => pure (b :: xs)) = Except.error er2
        rw [h2]
        rfl

/-- A `mapM` over `Except` succeeds when every element succeeds. -/
theorem mapM_except_ok {ε α β : Type} (f : α → Except ε β) :
    ∀ l : List α, (∀ x ∈ l, ∃ b, f x = Except.ok b) →
      ∃ bs, l.mapM f = Except.ok bs := by
  intro l
  induction l with
  | nil => intro _; exact ⟨[], by rw [List.mapM_nil]; rfl⟩
  | cons a t ih =>
    intro hall
    obtain ⟨b, hb⟩ := hall a (List.mem_cons_self a t)
    obtain ⟨bs, hbs⟩ := ih (fun x hx => hall x (List.mem_cons_of_mem a hx))
    refine ⟨b :: bs, ?_⟩
    rw [List.mapM_cons, hb]
    show (t.mapM f >>= fun xs => pure (b :: xs)) = Except.ok (b :: bs)
    rw [hbs]
    rfl

/-! ### Chunked reading -/

/-- An empty read sequence. -/
theorem chunksOf_nil {α : Type} (sz : Nat) (hsz : 0 < sz) :
    chunksOf sz hsz ([] : List α) = [] := by
  rw [chunksOf]
  rfl

/-- A nonempty read: one chunk of at most `sz` elements, then the rest. -/
theorem chunksOf_cons {α : Type} (sz : Nat) (hsz : 0 < sz) (l : List α)
    (h : l.isEmpty = false) :
    chunksOf sz hsz l = l.take sz :: chunksOf sz hsz (l.drop sz) := by
  rw [chunksOf]
  simp [h]

/-- Absorbing the chunks of `l` one after the other absorbs exactly `l`:
the chunked reading loop feeds the hash the full file content. -/
theorem chunksOf_foldl_update (sz : Nat) (hsz : 0 < sz) :
    ∀ (l acc : List Nat), (chunksOf sz hsz l).foldl sha1Update acc = acc ++ l := by
  intro l
  induction l using chunksOf.induct sz hsz with
  | case1 l hl =>
    intro acc
    rw [List.isEmpty_iff.mp hl, chunksOf_nil]
    simp
  | case2 l hl ih =>
    intro acc
    have hl' : l.isEmpty = false := by
      revert hl
      cases l.isEmpty <;> simp
    rw [chunksOf_cons sz hsz l hl']
    rw [List.foldl_cons, ih (sha1Update acc (l.take sz))]
    show acc ++ l.take sz ++ l.drop sz = acc ++ l
    rw [List.append_assoc, List.take_append_drop]

/-! ### SHA-1 word bounds and hexadecimal rendering -/

/-- Every word of the state after a block is reduced mod `2 ^ 32`. -/
theorem sha1ProcessBlock_bound (st : Nat × Nat × Nat × Nat × Nat)
    (block : List Nat) :
    (sha1ProcessBlock st block).1 < 4294967296
    ∧ (sha1ProcessBlock st block).2.1 < 4294967296
    ∧ (sha1ProcessBlock st block).2.2.1 < 4294967296
    ∧ (sha1ProcessBlock st block).2.2.2.1 < 4294967296
    ∧ (sha1ProcessBlock st block).2.2.2.2 < 4294967296 := by
  refine ⟨?_, ?_, ?_, ?_, ?_⟩ <;> exact Nat.mod_lt _ (by norm_num)

/-- Folding blocks preserves the 32-bit word bounds. -/
theorem sha1Fold_bound (blocks : List (List Nat)) :
    ∀ st : Nat × Nat × Nat × Nat × Nat,
      st.1 < 4294967296 → st.2.1 < 4294967296 → st.2.2.1 < 4294967296 →
      st.2.2.2.1 < 4294967296 → st.2.2.2.2 < 4294967296 →
      (blocks.foldl sha1ProcessBlock st).1 < 4294967296
      ∧ (blocks.foldl sha1ProcessBlock st).2.1 < 4294967296
      ∧ (blocks.foldl sha1ProcessBlock st).2.2.1 < 4294967296
      ∧ (blocks.foldl sha1ProcessBlock st).2.2.2.1 < 4294967296
      ∧ (blocks.foldl sha1ProcessBlock st).2.2.2.2 < 4294967296 := by
  induction blocks with
  | nil => intro st h1 h2 h3 h4 h5; exact ⟨h1, h2, h3, h4, h5⟩
  | cons b bs ih =>
    intro st _ _ _ _ _
    rw [List.foldl_cons]
    obtain ⟨g1, g2, g3, g4, g5⟩ := sha1ProcessBlock_bound st b
    exact ih (sha1ProcessBlock st b) g1 g2 g3 g4 g5

/-- The five state words of any digest are 32-bit words. -/
theorem sha1Words_bound (msg : List Nat) :
    (sha1Words msg).1 < 4294967296
    ∧ (sha1Words msg).2.1 < 4294967296
    ∧ (sha1Words msg).2.2.1 < 4294967296
    ∧ (sha1Words msg).2.2.2.1 < 4294967296
    ∧ (sha1Words msg).2.2.2.2 < 4294967296 := by
  refine sha1Fold_bound _ sha1Init ?_ ?_ ?_ ?_ ?_ <;> norm_num [sha1Init]

/-- `toHexFixed k` always renders exactly `k` characters. -/
theorem toHexFixed_length (k : Nat) : ∀ x : Nat, (toHexFixed k x).length = k := by
  induction k with
  | zero => intro x; rfl
  | succ k ih => intro x; simp [toHexFixed, ih (x / 16)]

/-- A hexadecimal digit below 16 renders as a lowercase hex character. -/
theorem hexDigitChar_mem (d : Nat) (hd : d < 16) :
    hexDigitChar d ∈ lowercaseHexDigits := by
  interval_cases d <;> decide

/-- Every character `toHexFixed` renders is a lowercase hex character. -/
theorem toHexFixed_chars (k : Nat) :
    ∀ x : Nat, ∀ c ∈ toHexFixed k x, c ∈ lowercaseHexDigits := by
  induction k with
  | zero => intro x c hc; exact absurd hc (List.not_mem_nil c)
  | succ k ih =>
    intro x c hc
    rcases List.mem_append.mp hc with hc' | hc'
    · exact ih (x / 16) c hc'
    · rw [List.mem_singleton.mp hc']
      exact hexDigitChar_mem (x % 16) (Nat.mod_lt x (by norm_num))

/-- Splitting a fixed-width rendering at a digit boundary. -/
theorem toHexFixed_append (k : Nat) :
    ∀ (j a b : Nat), b < 16 ^ j →
      toHexFixed (k + j) (a * 16 ^ j + b) = toHexFixed k a ++ toHexFixed j b := by
  intro j
  induction j with
  | zero =>
    intro a b hb
    have hb0 : b = 0 := by omega
    subst hb0
    simp [toHexFixed]
  | succ j ih =>
    intro a b hb
    have h1 : (a * 16 ^ (j + 1) + b) / 16 = a * 16 ^ j + b / 16 := by
      rw [show a * 16 ^ (j + 1) + b = b + a * 16 ^ j * 16 by ring]
      rw [Nat.add_mul_div_right b (a * 16 ^ j) (by norm_num)]
      exact Nat.add_comm _ _
    have h2 : (a * 16 ^ (j + 1) + b) % 16 = b % 16 := by
      rw [show a * 16 ^ (j + 1) + b = b + a * 16 ^ j * 16 by ring]
      exact Nat.add_mul_mod_self_right b (a * 16 ^ j) 16
    have hb16 : b / 16 < 16 ^ j := by
      refine Nat.div_lt_of_lt_mul ?_
      calc b < 16 ^ (j + 1) := hb
        _ = 16 * 16 ^ j := by ring
    rw [show k + (j + 1) = (k + j) + 1 by omega]
    show toHexFixed (k + j) ((a * 16 ^ (j + 1) + b) / 16)
        ++ [hexDigitChar ((a * 16 ^ (j + 1) + b) % 16)]
      = toHexFixed k a ++ (toHexFixed j (b / 16) ++ [hexDigitChar (b % 16)])
    rw [h1, h2, ih a (b / 16) hb16, List.append_assoc]

/-- Splitting off the lowest 32-bit word of a rendering. -/
theorem toHexFixed_append8 (k a b : Nat) (hb : b < 4294967296) :
    toHexFixed (k + 8) (a * 4294967296 + b) = toHexFixed k a ++ toHexFixed 8 b := by
  have h16 : (4294967296 : Nat) = 16 ^ 8 := by norm_num
  rw [h16] at hb
  rw [show a * 4294967296 + b = a * 16 ^ 8 + b by norm_num]
  exact toHexFixed_append k 8 a b hb

/-- Concatenating the renderings of five 32-bit words renders the single
160-bit value they encode. -/
theorem toHexFixed_five (w1 w2 w3 w4 w5 : Nat) (h2 : w2 < 4294967296)
    (h3 : w3 < 4294967296) (h4 : w4 < 4294967296) (h5 : w5 < 4294967296) :
    toHexFixed 40
        ((((w1 * 4294967296 + w2) * 4294967296 + w3) * 4294967296 + w4)
          * 4294967296 + w5)
      = toHexFixed 8 w1 ++ toHexFixed 8 w2 ++ toHexFixed 8 w3
          ++ toHexFixed 8 w4 ++ toHexFixed 8 w5 := by
  calc toHexFixed (32 + 8)
        ((((w1 * 4294967296 + w2) * 4294967296 + w3) * 4294967296 + w4)
          * 4294967296 + w5)
      = toHexFixed 32
          (((w1 * 4294967296 + w2) * 4294967296 + w3) * 4294967296 + w4)
          ++ toHexFixed 8 w5 :=
        toHexFixed_append8 32 _ w5 h5
    _ = toHexFixed (24 + 8)
          (((w1 * 4294967296 + w2) * 4294967296 + w3) * 4294967296 + w4)
          ++ toHexFixed 8 w5 := rfl
    _ = (toHexFixed 24 ((w1 * 4294967296 + w2) * 4294967296 + w3)
          ++ toHexFixed 8 w4) ++ toHexFixed 8 w5 := by
        rw [toHexFixed_append8 24 _ w4 h4]
    _ = (toHexFixed (16 + 8) ((w1 * 4294967296 + w2) * 4294967296 + w3)
          ++ toHexFixed 8 w4) ++ toHexFixed 8 w5 := rfl
    _ = ((toHexFixed 16 (w1 * 4294967296 + w2) ++ toHexFixed 8 w3)
          ++ toHexFixed 8 w4) ++ toHexFixed 8 w5 := by
        rw [toHexFixed_append8 16 _ w3 h3]
    _ = ((toHexFixed (8 + 8) (w1 * 4294967296 + w2) ++ toHexFixed 8 w3)
          ++ toHexFixed 8 w4) ++ toHexFixed 8 w5 := rfl
    _ = (((toHexFixed 8 w1 ++ toHexFixed 8 w2) ++ toHexFixed 8 w3)
          ++ toHexFixed 8 w4) ++ toHexFixed 8 w5 := by
        rw [toHexFixed_append8 8 w1 w2 h2]

/-- Rendering and combining agree on any five bounded words. -/
theorem sha1hexOfWords_eq_digest (w : Nat × Nat × Nat × Nat × Nat)
    (h1 : w.1 < 4294967296)
    (h2 : w.2.1 < 4294967296) (h3 : w.2.2.1 < 4294967296)
    (h4 : w.2.2.2.1 < 4294967296) (h5 : w.2.2.2.2 < 4294967296) :
    sha1hexOfWords w = String.mk (toHexFixed 40 (sha1DigestOfWords w))
    ∧ sha1DigestOfWords w < 2 ^ 160 := by
  obtain ⟨w1, w2, w3, w4, w5⟩ := w
  dsimp only at h1 h2 h3 h4 h5
  constructor
  · exact congrArg String.mk (toHexFixed_five w1 w2 w3 w4 w5 h2 h3 h4 h5).symm
  · show ((((w1 * 4294967296 + w2) * 4294967296 + w3) * 4294967296 + w4)
        * 4294967296 + w5) < 2 ^ 160
    have hp : (2 : Nat) ^ 160
        = 1461501637330902918203684832716283019655932542976 := by norm_num
    rw [hp]
    omega

/-- The digest string is the lowercase hexadecimal rendering, on 40 digits,
of the single 160-bit digest value. -/
theorem sha1hexBytes_eq_digest (msg : List Nat) :
    sha1hexBytes msg = String.mk (toHexFixed 40 (sha1Digest msg))
    ∧ sha1Digest msg < 2 ^ 160 := by
  obtain ⟨b1, b2, b3, b4, b5⟩ := sha1Words_bound msg
  exact sha1hexOfWords_eq_digest (sha1Words msg) b1 b2 b3 b4 b5

/-! ### The claims -/

/-- C1: for every pair of directories and every hashing function, `covered`
returns exactly the (path, hash) pairs of the source enumeration whose hash
matches no coverage-tree file's hash, in enumeration order; and with a
content-determined hash, a source file whose content equals some
coverage-tree file's content is never reported, whatever the names. -/
theorem covered_exactly_missing_hashes {n : Nat} {H : Type} [DecidableEq H]
    (fs : FS n) (src cov : String × Fin n) (hash_fun : String × Fin n → H)
    (g : List Nat → H) :
    covered fs src cov hash_fun = coveredSpec fs src cov hash_fun
    ∧ ∀ (e : String × Fin n) (x : H), e ∈ _all_files_in_dir fs src →
        (∃ e' ∈ _all_files_in_dir fs cov, fs.content e'.2 = fs.content e.2) →
        (e, x) ∉ covered fs src cov (fun p => g (fs.content p.2)) := by
  constructor
  · unfold covered coveredSpec
    apply List.filter_congr
    intro p hp
    apply decide_eq_decide.mpr
    rw [List.mem_map]
    constructor
    · intro hnot q hq heq
      exact hnot ⟨q, hq, heq.symm⟩
    · rintro hall ⟨q, hq, heq⟩
      exact hall q hq heq.symm
  · intro e x he hex hmem
    obtain ⟨e', he', hce⟩ := hex
    rw [mem_covered_iff] at hmem
    obtain ⟨hsrc, hnot⟩ := hmem
    apply hnot
    rw [dir_contents] at hsrc
    obtain ⟨f, hf, heq⟩ := List.mem_map.mp hsrc
    rw [Prod.mk.injEq] at heq
    rw [dir_contents, List.map_map]
    refine List.mem_map.mpr ⟨e', he', ?_⟩
    show g (fs.content e'.2) = x
    rw [hce, ← heq.2, heq.1]

/-- Witness for C1 on `exFS`: the `hello` file of `A` is covered by the
differently-named `hello` file of `B`, so it is not reported. -/
theorem covered_exactly_missing_hashes_witness :
    (("/A/a.txt", (1 : Fin 10)), [104, 101, 108, 108, 111])
      ∉ covered exFS ("/A", 0) ("/B", 4) exHash :=
  (covered_exactly_missing_hashes exFS ("/A", 0) ("/B", 4) exHash id).2
    ("/A/a.txt", 1) [104, 101, 108, 108, 111]
    (by rw [exFS_files_A]; decide)
    ⟨("/B/c.txt", 5), by rw [exFS_files_B]; decide, rfl⟩

/-- C2: when every source file's content occurs (under any name) in the
coverage tree, `covered` returns the empty list; hashing is any
content-determined function. -/
theorem covered_empty_of_content_covered {n : Nat} {H : Type} [DecidableEq H]
    (fs : FS n) (a b : String × Fin n) (g : List Nat → H)
    (hcov : ∀ e ∈ _all_files_in_dir fs a, ∃ e' ∈ _all_files_in_dir fs b,
      fs.content e'.2 = fs.content e.2) :
    covered fs a b (fun p => g (fs.content p.2)) = [] := by
  rw [covered_eq_nil_iff]
  intro p hp
  rw [dir_contents] at hp
  obtain ⟨f, hf, rfl⟩ := List.mem_map.mp hp
  obtain ⟨e', he', hce⟩ := hcov f hf
  rw [dir_contents, List.map_map]
  refine List.mem_map.mpr ⟨e', he', ?_⟩
  show g (fs.content e'.2) = g (fs.content f.2)
  rw [hce]

/-- Witness for C2: a tree is covered by itself. -/
theorem covered_empty_of_content_covered_witness :
    covered exFS ("/A", 0) ("/A", 0) exHash = [] :=
  covered_empty_of_content_covered exFS ("/A", 0) ("/A", 0) id
    (fun e he => ⟨e, he, rfl⟩)

/-- C3: against an empty coverage tree, `covered` reports every source file
paired with its hash, hence exactly `k` entries when the source tree has
`k` files. -/
theorem covered_all_of_empty_coverage {n : Nat} {H : Type} [DecidableEq H]
    (fs : FS n) (a b : String × Fin n) (hash_fun : String × Fin n → H) (k : Nat)
    (hb : _all_files_in_dir fs b = [])
    (hk : (_all_files_in_dir fs a).length = k) :
    covered fs a b hash_fun = dir_contents fs a hash_fun
    ∧ (covered fs a b hash_fun).length = k := by
  have h1 : covered fs a b hash_fun = dir_contents fs a hash_fun := by
    show (dir_contents fs a hash_fun).filter _ = dir_contents fs a hash_fun
    apply List.filter_eq_self.mpr
    intro p hp
    apply decide_eq_true
    rw [dir_contents, hb]
    simp
  refine ⟨h1, ?_⟩
  rw [h1, dir_contents, List.length_map, hk]

/-- Witness for C3: `A` has two files and `E` is empty, so both files are
reported with their hashes. -/
theorem covered_all_of_empty_coverage_witness :
    covered exFS ("/A", 0) ("/E", 6) exHash = dir_contents exFS ("/A", 0) exHash
    ∧ (covered exFS ("/A", 0) ("/E", 6) exHash).length = 2 :=
  covered_all_of_empty_coverage exFS ("/A", 0) ("/E", 6) exHash 2
    exFS_files_E (by rw [exFS_files_A]; rfl)

/-- C4: the enumerator is a total function (its worklist loop is
well-founded on the unvisited-inode count, so it terminates on every finite
filesystem, symlink cycles included), it yields each resolved inode at most
once, and the yielded inodes are exactly the non-directory inodes reachable
from the root's entries: each real file is enumerated exactly once. -/
theorem all_files_exactly_once {n : Nat} (fs : FS n) (d : String × Fin n) :
    ((_all_files_in_dir fs d).map Prod.snd).Nodup
    ∧ ∀ v : Fin n,
        v ∈ (_all_files_in_dir fs d).map Prod.snd ↔
          (fs.isDir v = false
            ∧ ∃ e ∈ childEntries fs d.1 d.2, ReachAvoid fs ∅ e.2 v) := by
  constructor
  · exact (allFilesAux_nodup fs ∅ (childEntries fs d.1 d.2)).1
  · intro v
    constructor
    · intro hv
      obtain ⟨p, hp, rfl⟩ := List.mem_map.mp hv
      obtain ⟨hdir, e, he, hr⟩ :=
        allFilesAux_sound fs ∅ (childEntries fs d.1 d.2) p hp
      exact ⟨hdir, e, he, hr⟩
    · rintro ⟨hdir, e, he, hr⟩
      exact allFilesAux_complete fs ∅ (childEntries fs d.1 d.2) v hdir ⟨e, he, hr⟩

/-- Witness for C4 on the cyclic filesystem `cycFS` (whose subdirectory
holds a symlink back to the root): the enumeration is duplicate-free and
the single real file is enumerated. -/
theorem all_files_exactly_once_witness :
    ((_all_files_in_dir cycFS ("/r", 0)).map Prod.snd).Nodup
    ∧ (1 : Fin 3) ∈ (_all_files_in_dir cycFS ("/r", 0)).map Prod.snd := by
  refine ⟨(all_files_exactly_once cycFS ("/r", 0)).1, ?_⟩
  refine ((all_files_exactly_once cycFS ("/r", 0)).2 1).mpr
    ⟨rfl, ("/r/a.txt", 1), ?_, ReachAvoid.refl 1 (by decide)⟩
  show ("/r/a.txt", (1 : Fin 3)) ∈ childEntries cycFS "/r" 0
  decide

/-- C5 evaluation: run via the relative root path `A`, the enumerator
yields paths that keep the relative root, and `main` prints them (with the
TAB and the hash, in enumeration order) without making them absolute. -/
theorem relative_root_relative_output :
    (_all_files_in_dir exFS ("A", 0)).map Prod.fst = ["A/sub/b.txt", "A/a.txt"]
    ∧ main_output exFS ("A", 0) ("/E", 6) exHashS = ["A/sub/b.txt\tW", "A/a.txt\tH"]
    ∧ isAbsolutePath "A/sub/b.txt" = false := by
  refine ⟨?_, ?_, ?_⟩
  · rw [exFS_files_A_rel]
    rfl
  · unfold main_output
    have hcov : covered exFS ("A", 0) ("/E", 6) exHashS
        = [(("A/sub/b.txt", 3), "W"), (("A/a.txt", 1), "H")] := by
      unfold covered dir_contents
      rw [exFS_files_A_rel, exFS_files_E]
      rfl
    rw [hcov]
    rfl
  · rfl

/-- C6: `sha1_file_hash` is the SHA-1 hex digest of the file's full byte
content: the chunked reading feeds exactly the content, the result depends
only on the content (not the path), and it renders the 160-bit digest
value as 40 lowercase hexadecimal characters. -/
theorem sha1_file_hash_content_digest {n : Nat} (fs : FS n)
    (p q : String × Fin n) (hpq : fs.content p.2 = fs.content q.2) :
    sha1_file_hash fs p = sha1hexBytes (fs.content p.2)
    ∧ sha1_file_hash fs p = sha1_file_hash fs q
    ∧ (sha1_file_hash fs p).length = 40
    ∧ (∀ c ∈ (sha1_file_hash fs p).data, c ∈ lowercaseHexDigits)
    ∧ sha1_file_hash fs p = String.mk (toHexFixed 40 (sha1Digest (fs.content p.2)))
    ∧ sha1Digest (fs.content p.2) < 2 ^ 160 := by
  have h1 : ∀ r : String × Fin n, sha1_file_hash fs r = sha1hexBytes (fs.content r.2) := by
    intro r
    unfold sha1_file_hash
    rw [chunksOf_foldl_update 65536 (by omega) (fs.content r.2) []]
    rw [List.nil_append]
  have hlen : (sha1hexBytes (fs.content p.2)).length = 40 := by
    show (String.mk _).length = 40
    rw [String.length_mk]
    simp [List.length_append, toHexFixed_length]
  have hchars : ∀ c ∈ (sha1hexBytes (fs.content p.2)).data, c ∈ lowercaseHexDigits := by
    intro c hc
    have hc' : c ∈ toHexFixed 8 (sha1Words (fs.content p.2)).1
        ++ toHexFixed 8 (sha1Words (fs.content p.2)).2.1
        ++ toHexFixed 8 (sha1Words (fs.content p.2)).2.2.1
        ++ toHexFixed 8 (sha1Words (fs.content p.2)).2.2.2.1
        ++ toHexFixed 8 (sha1Words (fs.content p.2)).2.2.2.2 := hc
    rcases List.mem_append.mp hc' with h' | h'
    on_goal 2 => exact toHexFixed_chars 8 _ c h'
    rcases List.mem_append.mp h' with h' | h'
    on_goal 2 => exact toHexFixed_chars 8 _ c h'
    rcases List.mem_append.mp h' with h' | h'
    on_goal 2 => exact toHexFixed_chars 8 _ c h'
    rcases List.mem_append.mp h' with h' | h'
    · exact toHexFixed_chars 8 _ c h'
    · exact toHexFixed_chars 8 _ c h'
  refine ⟨h1 p, ?_, ?_, ?_, ?_, (sha1hexBytes_eq_digest (fs.content p.2)).2⟩
  · rw [h1 p, h1 q, hpq]
  · rw [h1 p]
    exact hlen
  · rw [h1 p]
    exact hchars
  · rw [h1 p]
    exact (sha1hexBytes_eq_digest (fs.content p.2)).1

/-- Witness for C6: two files with equal content at different paths hash
identically, to the content's digest. -/
theorem sha1_file_hash_content_digest_witness :
    sha1_file_hash exFS ("/A/a.txt", 1) = sha1hexBytes (exFS.content 1)
    ∧ sha1_file_hash exFS ("/A/a.txt", 1) = sha1_file_hash exFS ("/B/c.txt", 5)
    ∧ (sha1_file_hash exFS ("/A/a.txt", 1)).length = 40
    ∧ (∀ c ∈ (sha1_file_hash exFS ("/A/a.txt", 1)).data, c ∈ lowercaseHexDigits)
    ∧ sha1_file_hash exFS ("/A/a.txt", 1)
        = String.mk (toHexFixed 40 (sha1Digest (exFS.content 1)))
    ∧ sha1Digest (exFS.content 1) < 2 ^ 160 :=
  sha1_file_hash_content_digest exFS ("/A/a.txt", 1) ("/B/c.txt", 5) rfl

/-- C7: the report is not deduplicated by hash: a pair whose hash is absent
from the coverage hashes occurs in the report exactly as often as in the
source enumeration, once per physical source file. -/
theorem covered_reports_per_file {n : Nat} {H : Type} [DecidableEq H]
    (fs : FS n) (src cov : String × Fin n) (hash_fun : String × Fin n → H)
    (p : (String × Fin n) × H)
    (hp : p.2 ∉ (dir_contents fs cov hash_fun).map Prod.snd) :
    (covered fs src cov hash_fun).countP (fun q => decide (q = p))
      = (dir_contents fs src hash_fun).countP (fun q => decide (q = p)) := by
  show ((dir_contents fs src hash_fun).filter _).countP _ = _
  rw [List.countP_filter]
  apply List.countP_congr
  intro x _
  by_cases hxp : x = p
  · subst hxp
    simp [hp]
  · simp [hxp]

/-- Witness for C7: `D` holds two distinct files with the same `hello`
content; against the empty tree `E`, each of the two is reported once. -/
theorem covered_reports_per_file_witness :
    (covered exFS ("/D", 7) ("/E", 6) exHash).countP
        (fun q => decide (q = (("/D/y.txt", 9), [104, 101, 108, 108, 111]))) = 1
    ∧ (covered exFS ("/D", 7) ("/E", 6) exHash).countP
        (fun q => decide (q = (("/D/x.txt", 8), [104, 101, 108, 108, 111]))) = 1 := by
  have hE : (dir_contents exFS ("/E", 6) exHash).map Prod.snd = [] := by
    rw [dir_contents, exFS_files_E]
    rfl
  constructor
  · exact (covered_reports_per_file exFS ("/D", 7) ("/E", 6) exHash
      (("/D/y.txt", 9), [104, 101, 108, 108, 111])
      (by rw [hE]; exact List.not_mem_nil _)).trans
      (by rw [dir_contents, exFS_files_D]; decide)
  · exact (covered_reports_per_file exFS ("/D", 7) ("/E", 6) exHash
      (("/D/x.txt", 8), [104, 101, 108, 108, 111])
      (by rw [hE]; exact List.not_mem_nil _)).trans
      (by rw [dir_contents, exFS_files_D]; decide)

/-- C8: if hashing any file enumerated from either tree raises, the
exception propagates out of `covered` and `main` produces no output at
all, not even lines for files hashed before the failure. -/
theorem hash_error_aborts_without_output {n : Nat} {ε : Type} (fs : FS n)
    (src cov : String × Fin n) (hash_fun : String × Fin n → Except ε String)
    (hfail :
      (∃ fle ∈ _all_files_in_dir fs src, ∃ er, hash_fun fle = Except.error er)
      ∨ (∃ fle ∈ _all_files_in_dir fs cov, ∃ er, hash_fun fle = Except.error er)) :
    ∃ er, coveredE fs src cov hash_fun = Except.error er
      ∧ main_outputE fs src cov hash_fun = Except.error er := by
  have hmap : ∀ (fle : String × Fin n) (er : ε), hash_fun fle = Except.error er →
      (hash_fun fle).map (fun h => (fle, h)) = Except.error er := by
    intro fle er h
    rw [h]
    rfl
  by_cases hsrc : ∃ fle ∈ _all_files_in_dir fs src, ∃ er,
      hash_fun fle = Except.error er
  · obtain ⟨fle, hin, er, her⟩ := hsrc
    obtain ⟨er0, h0⟩ := mapM_except_error
      (fun fle => (hash_fun fle).map (fun h => (fle, h)))
      (_all_files_in_dir fs src) ⟨fle, hin, er, hmap fle er her⟩
    have hc : coveredE fs src cov hash_fun = Except.error er0 := by
      unfold coveredE dir_contentsE
      rw [h0]
      rfl
    refine ⟨er0, hc, ?_⟩
    unfold main_outputE
    rw [hc]
    rfl
  · rcases hfail with hf | hf
    · exact absurd hf hsrc
    · push_neg at hsrc
      have hall : ∀ fle ∈ _all_files_in_dir fs src,
          ∃ b, (hash_fun fle).map (fun h => (fle, h)) = Except.ok b := by
        intro fle hin
        cases hh : hash_fun fle with
        | error er => exact absurd hh (hsrc fle hin er)
        | ok v => exact ⟨(fle, v), rfl⟩
      obtain ⟨bs, hbs⟩ := mapM_except_ok
        (fun fle => (hash_fun fle).map (fun h => (fle, h)))
        (_all_files_in_dir fs src) hall
      obtain ⟨fle, hin, er, her⟩ := hf
      obtain ⟨er0, h0⟩ := mapM_except_error
        (fun fle => (hash_fun fle).map (fun h => (fle, h)))
        (_all_files_in_dir fs cov) ⟨fle, hin, er, hmap fle er her⟩
      have hc : coveredE fs src cov hash_fun = Except.error er0 := by
        unfold coveredE dir_contentsE
        rw [hbs, h0]
        rfl
      refine ⟨er0, hc, ?_⟩
      unfold main_outputE
      rw [hc]
      rfl

/-- Witness for C8: a hashing function that raises on `A`'s `world` file
makes `covered` and `main` propagate the error with no output. -/
theorem hash_error_aborts_without_output_witness :
    ∃ er, coveredE exFS ("/A", 0) ("/B", 4) exHashE = Except.error er
      ∧ main_outputE exFS ("/A", 0) ("/B", 4) exHashE = Except.error er :=
  hash_error_aborts_without_output exFS ("/A", 0) ("/B", 4) exHashE
    (Or.inl ⟨("/A/sub/b.txt", 3), by rw [exFS_files_A]; decide, "unreadable", rfl⟩)

/-- C9: `covered` is a function of the filesystem state and the hashing
function alone: two runs over equal states give the same list, in the same
order. -/
theorem covered_deterministic {n : Nat} {H : Type} [DecidableEq H]
    (fs fs' : FS n) (src cov : String × Fin n)
    (hash_fun hash_fun' : String × Fin n → H)
    (hfs : fs = fs') (hh : hash_fun = hash_fun') :
    covered fs src cov hash_fun = covered fs' src cov hash_fun' := by
  rw [hfs, hh]

/-- Witness for C9: two runs on `exFS` agree. -/
theorem covered_deterministic_witness :
    covered exFS ("/A", 0) ("/B", 4) exHash
      = covered exFS ("/A", 0) ("/B", 4) exHash :=
  covered_deterministic exFS exFS ("/A", 0) ("/B", 4) exHash exHash rfl rfl

/-- C10: coverage is transitive: if every `a` hash occurs in `b` and every
`b` hash occurs in `c`, then every `a` hash occurs in `c`. -/
theorem covered_transitive {n : Nat} {H : Type} [DecidableEq H] (fs : FS n)
    (a b c : String × Fin n) (hash_fun : String × Fin n → H)
    (hab : covered fs a b hash_fun = [])
    (hbc : covered fs b c hash_fun = []) :
    covered fs a c hash_fun = [] := by
  rw [covered_eq_nil_iff] at hab hbc ⊢
  intro p hp
  obtain ⟨q, hq, hq2⟩ := List.mem_map.mp (hab p hp)
  rw [← hq2]
  exact hbc q hq

/-- Witness for C10 on `exFS`: `B` is covered by `D` and `D` by `A`, so
`B` is covered by `A`. -/
theorem covered_transitive_witness :
    covered exFS ("/B", 4) ("/A", 0) exHash = [] := by
  have hab : covered exFS ("/B", 4) ("/D", 7) exHash = [] := by
    unfold covered dir_contents
    rw [exFS_files_B, exFS_files_D]
    rfl
  have hbc : covered exFS ("/D", 7) ("/A", 0) exHash = [] := by
    unfold covered dir_contents
    rw [exFS_files_D, exFS_files_A]
    rfl
  exact covered_transitive exFS ("/B", 4) ("/D", 7) ("/A", 0) exHash hab hbc
